import Mathlib

/-!
Verification of the melax speech pipeline (hcmlab/melax).

This file shallowly embeds the queueing, splitting, chunking and streaming
logic of the repository and proves or refutes the specification claims
about it.  Definitions are translated from the Python sources:
  * `tts_modules.py`   — sentence splitting, audio chunk streaming, TTSWorker
  * `llm_modules.py`   — OpenAIWorker / OllamaWorker queues
  * `streaming_server/server.py` — the Audio2Face gRPC servicer
  * `mainwindow.py`    — conversation context handling
-/

namespace Melax

/-! ## Sentence splitting (`tts_modules.py`, `regex_sentence_split`, lines 98-122) -/

/-- The terminal punctuation characters of the regex `([.!?])`. -/
def isTerminal (c : Char) : Bool :=
  c = '.' || c = '!' || c = '?'

/-- ASCII whitespace as removed by Python `str.strip()` (the inputs the
repository feeds the splitter only use these whitespace characters). -/
def isPySpace (c : Char) : Bool :=
  c = ' ' || c = '\t' || c = '\n' || c = '\r' || c = '\x0b' || c = '\x0c'

/-- Python `str.strip()`: remove leading and trailing whitespace. -/
def pyStrip (l : List Char) : List Char :=
  ((l.dropWhile isPySpace).reverse.dropWhile isPySpace).reverse

/-- Python `re.sub(r'[\#\*]', '', text)`: remove every `#` and `*` character
(tts_modules.py line 111). -/
def cleanedChars (text : String) : List Char :=
  text.toList.filter (fun c => !(c = '#' || c = '*'))

/-- Python `re.split(r'([.!?])', s)` with a capture group: the resulting parts list
alternates text fragments and single-character delimiters, beginning and
ending with a (possibly empty) fragment (tts_modules.py line 114). -/
def splitParts : List Char → List (List Char)
  | [] => [[]]
  | c :: cs =>
    if isTerminal c then
      [] :: [c] :: splitParts cs
    else
      match splitParts cs with
      | p :: ps => (c :: p) :: ps
      | [] => [[c]]

/-- The accumulation loop of `regex_sentence_split`
(tts_modules.py lines 115-120):
`for i in range(0, len(parts) - 1, 2)` pairs each fragment with the
following delimiter, strips both, and keeps `sentence + punctuation`
whenever the stripped fragment is non-empty.  The final fragment (after
the last delimiter) is never visited by the loop. -/
def collectSentences : List (List Char) → List (List Char)
  | f :: d :: rest =>
    let s := pyStrip f
    let p := pyStrip d
    if s.isEmpty then collectSentences rest
    else (s ++ p) :: collectSentences rest
  | _ => []

/-- The splitter `regex_sentence_split` (tts_modules.py lines 98-122). -/
def regex_sentence_split (text : String) : List String :=
  (collectSentences (splitParts (cleanedChars text))).map (fun l => String.mk l)

/-! ### Specification-side characterisation of the splitter (for claim C9).

`splitAtTerminals l` returns the list of (fragment, terminal mark) pairs of
`l` — each fragment being the run of non-terminal characters before that
mark — together with the trailing fragment after the last mark.  This
definition follows the words of the claim, to be compared with the
source-derived `regex_sentence_split`. -/
def splitAtTerminals : List Char → List (List Char × Char) × List Char
  | [] => ([], [])
  | c :: cs =>
    let r := splitAtTerminals cs
    if isTerminal c then (([], c) :: r.1, r.2)
    else
      match r.1 with
      | [] => ([], c :: r.2)
      | (f, d) :: ps => ((c :: f, d) :: ps, r.2)

/-- Modelled from the words of claim C9: the non-empty trimmed fragments
that are followed by a terminal punctuation mark, with that mark appended;
the trailing fragment after the last mark is discarded. -/
def regexSplitSpec (text : String) : List String :=
  (splitAtTerminals (cleanedChars text)).1.filterMap
    (fun fd =>
      if (pyStrip fd.1).isEmpty then none
      else some (String.mk (pyStrip fd.1 ++ [fd.2])))

/-- Does the cleaned text contain a sentence the splitter will keep: a
fragment, ending at a terminal punctuation mark, that is non-empty after
trimming? -/
def hasSentence (text : String) : Bool :=
  (splitAtTerminals (cleanedChars text)).1.any (fun fd => !(pyStrip fd.1).isEmpty)

/-- Interleaving a pair list with its trailing fragment back into the
alternating parts shape produced by `re.split` with a capture group. -/
def pairsToParts (ps : List (List Char × Char)) (t : List Char) : List (List Char) :=
  ps.flatMap (fun fd => [fd.1, [fd.2]]) ++ [t]



/-! ## Audio chunk streaming (`tts_modules.py`, `push_audio_track_stream`,
lines 144-175)

The generator loop is

    idx = 0
    while idx < total_len:
        time.sleep(sleep_between_chunks)
        chunk = audio_data[idx : idx + chunk_size]
        idx += chunk_size
        yield PushAudioStreamRequest(audio_data=chunk...)

`chunkLoopFuel` embeds this loop with an explicit fuel bound so that its
(non-)termination can be analysed (`none` = the fuel ran out before the
loop finished).  `chunksOf` runs the loop with enough fuel for any
chunk size ≥ 1. -/

/-- The chunk-producing while loop of `make_generator`, fuelled. -/
def chunkLoopFuel {α : Type} : Nat → Nat → List α → Nat → Option (List (List α))
  | 0, _, audio, idx => if idx < audio.length then none else some []
  | fuel + 1, C, audio, idx =>
    if idx < audio.length then
      (chunkLoopFuel fuel C audio (idx + C)).map
        (fun rest => ((audio.drop idx).take C) :: rest)
    else some []

/-- The chunks emitted by the loop, with enough fuel (one unit per element
suffices whenever `chunk_size ≥ 1`). -/
def chunksOf {α : Type} (C : Nat) (l : List α) : List (List α) :=
  (chunkLoopFuel l.length C l 0).getD []

/-- Recursive characterisation of the slicing, used for the proofs;
`chunksOf_eq_chunksRec` ties it back to the fuelled loop. -/
def chunksRec {α : Type} (C : Nat) : List α → List (List α)
  | [] => []
  | x :: xs => ((x :: xs).take C) :: chunksRec C (xs.drop (C - 1))
termination_by l => l.length
decreasing_by simp [List.length_drop]; omega

/-! ## Streamed wire protocol, client side
(`tts_modules.py`, `push_audio_track_stream` / `make_generator`,
lines 144-175) -/

/-- One observable action of the request generator: yielding the
start-marker message, sleeping for `delay_between_chunks / 100` seconds
(the real-time duration is not modelled, only the occurrence of the
sleep), or yielding one audio-chunk message. -/
inductive StreamItem (α : Type) where
  | startMarker (samplerate : Nat) (instance_name : String) (blocking : Bool)
  | sleep
  | audioChunk (chunk : List α)
deriving DecidableEq

def isSleepItem {α : Type} : StreamItem α → Bool
  | .sleep => true
  | _ => false

def isChunkItem {α : Type} : StreamItem α → Bool
  | .audioChunk _ => true
  | _ => false

def isStartItem {α : Type} : StreamItem α → Bool
  | .startMarker _ _ _ => true
  | _ => false

/-- The generator `make_generator` (tts_modules.py lines 155-173) as the ordered sequence
of actions it performs: it first yields the start marker, then each loop
iteration sleeps and yields one chunk (`time.sleep` comes before the
`yield` inside the `while` body).  The finite trace exists exactly when the
loop terminates; the `chunk_size = 0` divergence is analysed separately
through `chunkLoopFuel` (claim C10). -/
def make_generator {α : Type} (samplerate : Nat) (instance_name : String)
    (blocking : Bool) (chunk_size : Nat) (audio_data : List α) :
    List (StreamItem α) :=
  .startMarker samplerate instance_name blocking ::
    (chunksOf chunk_size audio_data).flatMap (fun c => [.sleep, .audioChunk c])

/-- The client `push_audio_track_stream` (tts_modules.py lines 144-175): computes
`chunk_size = samplerate // chunk_duration` and streams the generator. -/
def push_audio_track_stream {α : Type} (samplerate chunk_duration : Nat)
    (instance_name : String) (blocking : Bool) (audio_data : List α) :
    List (StreamItem α) :=
  make_generator samplerate instance_name blocking (samplerate / chunk_duration)
    audio_data

/-! ## Streamed wire protocol, server side
(`streaming_server/server.py`, `Audio2FaceServicer.PushAudioStream`,
lines 79-117) -/

/-- A `PushAudioStreamRequest` as the server sees it: either the
start-marker variant or the audio-data variant of the oneof. -/
inductive A2FMsg (α : Type) where
  | start (samplerate : Nat) (instance_name : String) (blocking : Bool)
  | audio (chunk : List α)
deriving DecidableEq

/-- The messages actually sent over the channel by the client generator:
its yields, without the sleeps. -/
def clientMessages {α : Type} (trace : List (StreamItem α)) : List (A2FMsg α) :=
  trace.filterMap (fun it =>
    match it with
    | .startMarker sr name bl => some (.start sr name bl)
    | .sleep => none
    | .audioChunk c => some (.audio c))

def isStartMsg {α : Type} : A2FMsg α → Bool
  | .start _ _ _ => true
  | _ => false

/-- Response message `PushAudioResponse` of the protocol. -/
structure PushAudioResponse where
  success : Bool
  message : String
deriving DecidableEq

/-- The `for item in request_iterator` loop of `PushAudioStream`
(server.py lines 102-108): each remaining message contributes
`item.audio_data` (the proto3 default — the empty buffer — when the
message is not the audio variant) to `push_chunk_callback`; a callback
raising RuntimeError (modelled as `some errText`) aborts the loop.
Returns the payloads passed to the callback, in order, and the error. -/
def serverChunkLoop {α : Type}
    (push_chunk_callback : String → List α → Option String)
    (instance_name : String) : List (A2FMsg α) → List (List α) × Option String
  | [] => ([], none)
  | m :: rest =>
    let d : List α := match m with
      | .audio c => c
      | .start _ _ _ => []
    match push_chunk_callback instance_name d with
    | some e => ([d], some e)
    | none =>
      let r := serverChunkLoop push_chunk_callback instance_name rest
      (d :: r.1, r.2)

/-- The servicer method `Audio2FaceServicer.PushAudioStream` (server.py lines 79-117).  The
three callbacks return `some errText` to model a RuntimeError being
raised.  `Except.error` models an exception escaping the handler (`next`
on an exhausted iterator).  The result carries the response together with
the chunk payloads handed to `push_chunk_callback`. -/
def pushAudioStreamServer {α : Type}
    (audio_start_callback : String → Nat → Option String)
    (push_chunk_callback : String → List α → Option String)
    (audio_end_callback : String → Bool → Option String) :
    List (A2FMsg α) → Except String (PushAudioResponse × List (List α))
  | [] => .error ("StopIteration")
  | first :: rest =>
    match first with
    | .audio _ =>
      .ok (⟨false, "First item in the request should contain start_marker"⟩, [])
    | .start samplerate instance_name blocking =>
      match audio_start_callback instance_name samplerate with
      | some e => .ok (⟨false, e⟩, [])
      | none =>
        match serverChunkLoop push_chunk_callback instance_name rest with
        | (ds, some e) => .ok (⟨false, e⟩, ds)
        | (ds, none) =>
          match audio_end_callback instance_name blocking with
          | some e => .ok (⟨false, e⟩, ds)
          | none => .ok (⟨true, ""⟩, ds)

/-! ## Stage worker queues
(`tts_modules.py` TTSWorker lines 218-273; `llm_modules.py` OpenAIWorker
lines 17-65 and OllamaWorker lines 80-150 — the three `add_request` /
`stop` pairs have identical queue logic) -/

structure StageWorkerState (Req : Type) where
  request_queue : List Req
  should_exit : Bool
  is_processing : Bool
deriving DecidableEq

/-- Method `add_request` (tts_modules.py 258-265; llm_modules.py 54-59 and
131-142): a no-op once `should_exit` is set, otherwise append to the
FIFO. -/
def add_request {Req : Type} (s : StageWorkerState Req) (r : Req) :
    StageWorkerState Req :=
  if s.should_exit then s
  else { s with request_queue := s.request_queue ++ [r] }

/-- Method `stop` (tts_modules.py 267-273; llm_modules.py 61-65 and 144-150):
set the exit flag and clear every queued request. -/
def stopWorker {Req : Type} (s : StageWorkerState Req) : StageWorkerState Req :=
  { s with should_exit := true, request_queue := [] }

/-- The queue effect of one `TTSWorker.run` loop iteration
(tts_modules.py 234-249) / one `process_queue` call (llm_modules.py
21-30, 86-98): return unchanged when exiting, busy, or idle with an empty
queue; otherwise dequeue the front request and mark processing. -/
def workerPoll {Req : Type} (s : StageWorkerState Req) : StageWorkerState Req :=
  if s.should_exit then s
  else if s.is_processing then s
  else
    match s.request_queue with
    | [] => s
    | _ :: rest => { s with request_queue := rest, is_processing := true }

/-- The `finally: self.is_processing = False` ending each request
(tts_modules.py 255-256; llm_modules.py 50-51, 127-128). -/
def workerFinish {Req : Type} (s : StageWorkerState Req) : StageWorkerState Req :=
  { s with is_processing := false }

inductive WorkerOp (Req : Type) where
  | add (r : Req)
  | stop
  | poll
  | finish

def applyWorkerOp {Req : Type} (s : StageWorkerState Req) :
    WorkerOp Req → StageWorkerState Req
  | .add r => add_request s r
  | .stop => stopWorker s
  | .poll => workerPoll s
  | .finish => workerFinish s

/-! ## Single-flight processing order (claim C7)

The drain loop, with the in-flight request made explicit: one loop
iteration of `TTSWorker.run` / `_process_request` is split into a dequeue
transition (take the front request, mark processing) and a completion
transition (the engine adapter returns, the response is emitted via the
success signal, processing is cleared). -/

structure StageRun (Req Resp : Type) where
  request_queue : List Req
  current : Option Req
  emitted : List Resp
  should_exit : Bool

def stageStep {Req Resp : Type} (engine : Req → Resp) (s : StageRun Req Resp) :
    StageRun Req Resp :=
  if s.should_exit then s
  else
    match s.current with
    | some r => { s with current := none, emitted := s.emitted ++ [engine r] }
    | none =>
      match s.request_queue with
      | [] => s
      | r :: rest => { s with request_queue := rest, current := some r }

def runStage {Req Resp : Type} (engine : Req → Resp) :
    Nat → StageRun Req Resp → StageRun Req Resp
  | 0, s => s
  | n + 1, s => runStage engine n (stageStep engine s)

/-! ## TTSWorker request processing (claim C8)
(`tts_modules.py`, `run` lines 234-256 and `_process_text_to_a2f`
lines 275-314) -/

/-- The signals a TTSWorker emits for one request. -/
inductive TtsSignal where
  | ttsFinished (msg : String)
  | ttsError (msg : String)
deriving DecidableEq

/-- The per-utterance loop of `_process_text_to_a2f` (lines 290-312):
synthesize each sentence in order and deliver its audio; an exception from
the synthesis engine adapter (`Except.error`) aborts the loop.  Returns
the delivered audio buffers, in order, and the first error if any. -/
def processSentences {α : Type} (synthesize : String → Except String (List α)) :
    List String → List (List α) × Option String
  | [] => ([], none)
  | sentence :: rest =>
    match synthesize sentence with
    | .error e => ([], some e)
    | .ok audio =>
      let r := processSentences synthesize rest
      (audio :: r.1, r.2)

/-- One `TTSWorker.run` iteration processing `text` (lines 247-256 with
`_process_text_to_a2f`): split with the regex splitter, process each
sentence, emit `ttsFinished` after the loop or `ttsError` with the
exception text when a sentence raised. -/
def ttsProcessRequest {α : Type} (synthesize : String → Except String (List α))
    (text : String) : List (List α) × List TtsSignal :=
  match processSentences synthesize (regex_sentence_split text) with
  | (delivered, some e) => (delivered, [.ttsError e])
  | (delivered, none) =>
    (delivered, [.ttsFinished ("TTS done for text: " ++ text)])

/-! ## Conversation context (`mainwindow.py`, claim C2) -/

structure ChatMessage where
  role : String
  content : String
deriving DecidableEq

/-- Constant `MainWindow.MAX_CONTEXT_LENGTH` (mainwindow.py line 66).  It is never
read by the active code. -/
def MAX_CONTEXT_LENGTH : Nat := 50

/-- The effect of `MainWindow.send_to_llm` (mainwindow.py lines 503-521)
on `self.context`: none.  The active method builds a fresh one-message
list for the worker and neither appends to nor truncates `self.context`
(the appending/truncating variants at lines 541-568 and 588-613 are
commented out). -/
def send_to_llm_context (context : List ChatMessage) (_user_input : String) :
    List ChatMessage :=
  context

/-- The request payload `send_to_llm` actually submits to the worker. -/
def send_to_llm_request (user_input : String) : List ChatMessage :=
  [⟨"user", user_input⟩]

/-- Slot `MainWindow.display_llm_response` (mainwindow.py lines 569-578):
append the assistant message; no truncation. -/
def display_llm_response (context : List ChatMessage) (response : String) :
    List ChatMessage :=
  context ++ [⟨"assistant", response⟩]


/-- Extract the audio payload of a yielded message, if any. -/
def chunkPayload {α : Type} : StreamItem α → Option (List α)
  | .audioChunk c => some c
  | _ => none

/-- A concrete synthesis engine adapter for evaluation: succeeds on the
first sample utterance, raises on everything else. -/
def sampleSynth : String → Except String (List Int) :=
  fun s => if s = "Hello there." then .ok [1] else .error ("boom")

theorem splitParts_eq_pairsToParts (l : List Char) :
    splitParts l = pairsToParts (splitAtTerminals l).1 (splitAtTerminals l).2 := by
  induction l with
  | nil => rfl
  | cons c cs ih =>
    by_cases hc : isTerminal c
    · simp [splitParts, splitAtTerminals, hc, pairsToParts] at ih ⊢
      exact ih
    · simp [splitParts, splitAtTerminals, hc] at ih ⊢
      cases hps : (splitAtTerminals cs).1 with
      | nil =>
        simp [hps, pairsToParts] at ih ⊢
        simp [ih]
      | cons fd ps =>
        simp [hps, pairsToParts] at ih ⊢
        simp [ih]

theorem pyStrip_single_terminal (d : Char) (hd : isTerminal d) :
    pyStrip [d] = [d] := by
  have hd2 : (d = '.' ∨ d = '!') ∨ d = '?' := by
    simpa [isTerminal] using hd
  have hsp : isPySpace d = false := by
    rcases hd2 with (h | h) | h <;> subst h <;> decide
  simp [pyStrip, List.dropWhile, hsp]

theorem pairsToParts_cons (fd : List Char × Char) (ps : List (List Char × Char))
    (t : List Char) :
    pairsToParts (fd :: ps) t = fd.1 :: [fd.2] :: pairsToParts ps t := by
  simp [pairsToParts]

theorem collectSentences_pairsToParts (ps : List (List Char × Char)) (t : List Char)
    (hps : ∀ fd ∈ ps, isTerminal fd.2) :
    collectSentences (pairsToParts ps t) =
      ps.filterMap (fun fd =>
        let s := pyStrip fd.1
        if s.isEmpty then none else some (s ++ [fd.2])) := by
  induction ps with
  | nil => simp [pairsToParts, collectSentences]
  | cons fd ps ih =>
    have hterm : isTerminal fd.2 := hps fd (by simp)
    have ih2 := ih (fun x hx => hps x (by simp [hx]))
    rw [pairsToParts_cons]
    by_cases hs : (pyStrip fd.1).isEmpty
    · simp only [collectSentences, hs, if_true, ih2, List.filterMap_cons]
    · simp only [collectSentences, hs, if_false, ih2, List.filterMap_cons,
        pyStrip_single_terminal fd.2 hterm]
      simp

theorem splitAtTerminals_marks (l : List Char) :
    ∀ fd ∈ (splitAtTerminals l).1, isTerminal fd.2 := by
  induction l with
  | nil => simp [splitAtTerminals]
  | cons c cs ih =>
    intro fd hfd
    by_cases hc : isTerminal c
    · rw [splitAtTerminals] at hfd
      simp only [hc, if_true, List.mem_cons] at hfd
      rcases hfd with h | h
      · rw [h]; exact hc
      · exact ih fd h
    · rw [splitAtTerminals] at hfd
      simp only [hc] at hfd
      cases hps : (splitAtTerminals cs).1 with
      | nil => rw [hps] at hfd; simp at hfd
      | cons gd ps =>
        rw [hps] at hfd
        cases hfd with
        | head =>
          have hgd := ih gd (by rw [hps]; exact List.mem_cons_self gd ps)
          exact hgd
        | tail b hmem =>
          exact ih fd (by rw [hps]; exact List.mem_cons_of_mem gd hmem)

theorem regex_split_eq_spec (text : String) :
    regex_sentence_split text = regexSplitSpec text := by
  unfold regex_sentence_split regexSplitSpec
  rw [splitParts_eq_pairsToParts,
    collectSentences_pairsToParts _ _ (splitAtTerminals_marks (cleanedChars text))]
  rw [List.map_filterMap]
  congr 1
  funext fd
  by_cases hs : (pyStrip fd.1).isEmpty <;> simp [hs]

theorem splitAtTerminals_no_terminal (l : List Char)
    (h : ∀ c ∈ l, isTerminal c = false) :
    splitAtTerminals l = ([], l) := by
  induction l with
  | nil => rfl
  | cons c cs ih =>
    have hc : isTerminal c = false := h c (by simp)
    have ih2 := ih (fun x hx => h x (by simp [hx]))
    simp [splitAtTerminals, hc, ih2]


theorem chunksRec_cons_eq {α : Type} (C : Nat) (hC : 1 ≤ C) (l : List α)
    (hl : l ≠ []) :
    chunksRec C l = l.take C :: chunksRec C (l.drop C) := by
  cases l with
  | nil => exact absurd rfl hl
  | cons x xs =>
    rw [chunksRec]
    congr 2
    cases C with
    | zero => omega
    | succ n => simp

/-- If the fuel covers the remaining samples, the loop terminates and
produces exactly the recursive slicing of the unread suffix. -/
theorem chunkLoopFuel_eq_chunksRec {α : Type} (C : Nat) (hC : 1 ≤ C) :
    ∀ (fuel : Nat) (audio : List α) (idx : Nat),
      audio.length ≤ idx + fuel * C →
      chunkLoopFuel fuel C audio idx = some (chunksRec C (audio.drop idx)) := by
  intro fuel
  induction fuel with
  | zero =>
    intro audio idx hle
    simp only [Nat.zero_mul, Nat.add_zero] at hle
    have hnl : ¬ idx < audio.length := by omega
    have hdrop : audio.drop idx = [] := List.drop_eq_nil_of_le (by omega)
    simp [chunkLoopFuel, hnl, hdrop, chunksRec]
  | succ fuel ih =>
    intro audio idx hle
    by_cases hlt : idx < audio.length
    · have hrec := ih audio (idx + C) (by rw [Nat.add_mul] at hle; omega)
      rw [chunkLoopFuel]
      simp only [hlt, if_true, hrec, Option.map_some]
      have hne : audio.drop idx ≠ [] := by
        intro h
        have := List.drop_eq_nil_iff.mp h
        omega
      rw [chunksRec_cons_eq C hC _ hne]
      rw [List.drop_drop]
      rfl
    · have hdrop : audio.drop idx = [] := List.drop_eq_nil_of_le (by omega)
      simp [chunkLoopFuel, hlt, hdrop, chunksRec]

theorem chunksOf_eq_chunksRec {α : Type} (C : Nat) (hC : 1 ≤ C) (l : List α) :
    chunksOf C l = chunksRec C l := by
  unfold chunksOf
  rw [chunkLoopFuel_eq_chunksRec C hC l.length l 0
    (by calc l.length ≤ l.length * C := Nat.le_mul_of_pos_right _ (by omega)
          _ = 0 + l.length * C := by omega)]
  simp

theorem chunksRec_eq_nil_iff {α : Type} (C : Nat) (l : List α) :
    chunksRec C l = [] ↔ l = [] := by
  cases l with
  | nil => simp [chunksRec]
  | cons x xs => rw [chunksRec]; simp

theorem chunksRec_flatten {α : Type} (C : Nat) (hC : 1 ≤ C) (l : List α) :
    (chunksRec C l).flatten = l := by
  suffices key : ∀ (n : Nat) (l : List α), l.length = n → (chunksRec C l).flatten = l by
    exact key l.length l rfl
  intro n
  induction n using Nat.strong_induction_on with
  | _ n ih =>
    intro l hn
    cases l with
    | nil => simp [chunksRec]
    | cons x xs =>
      rw [chunksRec_cons_eq C hC _ (by simp)]
      have hlt : ((x :: xs).drop C).length < n := by
        subst hn
        simp only [List.length_drop, List.length_cons]
        omega
      rw [List.flatten_cons, ih _ hlt _ rfl]
      exact List.take_append_drop C (x :: xs)

theorem chunksRec_length {α : Type} (C : Nat) (hC : 1 ≤ C) (l : List α) :
    (chunksRec C l).length = (l.length + C - 1) / C := by
  suffices key : ∀ (n : Nat) (l : List α), l.length = n →
      (chunksRec C l).length = (l.length + C - 1) / C by
    exact key l.length l rfl
  intro n
  induction n using Nat.strong_induction_on with
  | _ n ih =>
    intro l hn
    cases l with
    | nil =>
      simp only [chunksRec, List.length_nil]
      rw [Nat.div_eq_of_lt (by omega)]
    | cons x xs =>
      rw [chunksRec_cons_eq C hC _ (by simp)]
      have hlt : ((x :: xs).drop C).length < n := by
        subst hn
        simp only [List.length_drop, List.length_cons]
        omega
      rw [List.length_cons, ih _ hlt _ rfl]
      simp only [List.length_drop, List.length_cons]
      rcases Nat.lt_or_ge (xs.length + 1) C with hlt2 | hge
      · have h1 : xs.length + 1 - C = 0 := by omega
        rw [h1, Nat.div_eq_of_lt (by omega)]
        have e3 : xs.length + 1 + C - 1 = (xs.length + 1 - 1) + C := by omega
        rw [e3, Nat.add_div_right _ (by omega), Nat.div_eq_of_lt (by omega)]
      · have e2 : xs.length + 1 + C - 1 = (xs.length + 1 - C + C - 1) + C := by
          omega
        rw [e2, Nat.add_div_right _ (by omega)]

theorem chunksRec_dropLast_length {α : Type} (C : Nat) (hC : 1 ≤ C) (l : List α) :
    ∀ c ∈ (chunksRec C l).dropLast, c.length = C := by
  suffices key : ∀ (n : Nat) (l : List α), l.length = n →
      ∀ c ∈ (chunksRec C l).dropLast, c.length = C by
    exact key l.length l rfl
  intro n
  induction n using Nat.strong_induction_on with
  | _ n ih =>
    intro l hn
    cases l with
    | nil => simp [chunksRec]
    | cons x xs =>
      rw [chunksRec_cons_eq C hC _ (by simp)]
      cases hrest : chunksRec C ((x :: xs).drop C) with
      | nil => simp
      | cons r rs =>
        have hdne : (x :: xs).drop C ≠ [] := by
          intro h
          rw [h] at hrest
          simp [chunksRec] at hrest
        have hCle : C ≤ (x :: xs).length := by
          by_contra hcon
          exact hdne (List.drop_eq_nil_of_le (by omega))
        intro c hc
        rw [List.dropLast_cons₂] at hc
        rcases List.mem_cons.mp hc with h | h
        · rw [h, List.length_take]
          omega
        · have hlt : ((x :: xs).drop C).length < n := by
            subst hn
            simp only [List.length_drop, List.length_cons]
            omega
          have := ih _ hlt _ rfl
          rw [hrest] at this
          exact this c h

theorem chunksRec_getLast_length {α : Type} (C : Nat) (hC : 1 ≤ C) (l : List α)
    (hl : l ≠ []) :
    ((chunksRec C l).getLast?).map List.length =
      some (if l.length % C = 0 then C else l.length % C) := by
  suffices key : ∀ (n : Nat) (l : List α), l.length = n → l ≠ [] →
      ((chunksRec C l).getLast?).map List.length =
        some (if l.length % C = 0 then C else l.length % C) by
    exact key l.length l rfl hl
  intro n
  induction n using Nat.strong_induction_on with
  | _ n ih =>
    intro l hn hl2
    cases l with
    | nil => exact absurd rfl hl2
    | cons x xs =>
      rw [chunksRec_cons_eq C hC _ (by simp)]
      cases hrest : chunksRec C ((x :: xs).drop C) with
      | nil =>
        have hdnil : (x :: xs).drop C = [] := (chunksRec_eq_nil_iff C _).mp hrest
        have hle : (x :: xs).length ≤ C := by
          have := List.drop_eq_nil_iff.mp hdnil
          omega
        simp only [List.getLast?_singleton, Option.map_some', List.length_take]
        have hmin : min C (x :: xs).length = (x :: xs).length := by omega
        rw [hmin]
        rcases Nat.eq_or_lt_of_le hle with heq | hlt2
        · rw [← heq, Nat.mod_self]
          simp
        · rw [Nat.mod_eq_of_lt hlt2]
          have hne0 : (x :: xs).length ≠ 0 := by simp
          simp [hne0]
      | cons r rs =>
        have hdne : (x :: xs).drop C ≠ [] := by
          intro h
          rw [h] at hrest
          simp [chunksRec] at hrest
        have hCle : C ≤ (x :: xs).length := by
          by_contra hcon
          exact hdne (List.drop_eq_nil_of_le (by omega))
        have hlt : ((x :: xs).drop C).length < n := by
          subst hn
          simp only [List.length_drop, List.length_cons]
          omega
        have hrec := ih _ hlt _ rfl hdne
        rw [hrest] at hrec
        rw [List.getLast?_cons_cons, hrec]
        have hmod : ((x :: xs).drop C).length % C = (x :: xs).length % C := by
          simp only [List.length_drop]
          exact (Nat.mod_eq_sub_mod hCle).symm
        rw [hmod]


/-! ## Helper lemmas for the claim theorems -/

theorem filterMap_ne_nil_iff_any {β γ : Type} (f : β → Option γ) (l : List β) :
    l.filterMap f ≠ [] ↔ l.any (fun x => (f x).isSome) = true := by
  induction l with
  | nil => simp
  | cons x xs ih =>
    cases hf : f x with
    | none => simp [List.filterMap_cons, hf, ih]
    | some y => simp [List.filterMap_cons, hf]

/-! ## Claim theorems -/

/-- C1 counterexample: the non-empty input `"hello"` contains no terminal
punctuation and `regex_sentence_split` returns the empty list for it — not
the trimmed whole string — so the claim as stated is false. -/
theorem C1_counterexample :
    ("hello" : String) ≠ "" ∧ regex_sentence_split ("hello") = [] := by
  constructor
  · decide
  · decide

/-- C1 (amended): `regex_sentence_split` returns at least one utterance
exactly when the cleaned input contains a fragment, ending at a terminal
punctuation mark, that is non-empty after trimming (`hasSentence`); every
returned utterance is non-empty; and a (even non-empty) input with no
terminal punctuation yields the empty list. -/
theorem C1_regex_split_amended (text : String) :
    (regex_sentence_split text ≠ [] ↔ hasSentence text = true) ∧
    (∀ s ∈ regex_sentence_split text, s ≠ "") ∧
    ((∀ c ∈ cleanedChars text, isTerminal c = false) →
      regex_sentence_split text = []) := by
  refine ⟨?_, ?_, ?_⟩
  · rw [regex_split_eq_spec]
    unfold regexSplitSpec hasSentence
    rw [filterMap_ne_nil_iff_any]
    have hfun : ∀ fd : List Char × Char,
        ((if (pyStrip fd.1).isEmpty then none
          else some (String.mk (pyStrip fd.1 ++ [fd.2]))) : Option String).isSome
          = !(pyStrip fd.1).isEmpty := by
      intro fd
      by_cases hs : (pyStrip fd.1).isEmpty <;> simp [hs]
    simp only [hfun]
  · intro s hs
    rw [regex_split_eq_spec] at hs
    unfold regexSplitSpec at hs
    rcases List.mem_filterMap.mp hs with ⟨fd, hmem, hf⟩
    by_cases he : (pyStrip fd.1).isEmpty
    · simp [he] at hf
    · rw [if_neg he] at hf
      have hmk : String.mk (pyStrip fd.1 ++ [fd.2]) = s := Option.some.inj hf
      intro hcon
      rw [hcon] at hmk
      have hdata : pyStrip fd.1 ++ [fd.2] = ([] : List Char) := by
        simpa using congrArg String.data hmk
      simp at hdata
  · intro hnt
    rw [regex_split_eq_spec]
    unfold regexSplitSpec
    rw [splitAtTerminals_no_terminal _ hnt]
    rfl

/-- Witness for `C1_regex_split_amended`: a sentence-bearing input yields
a non-empty utterance list, and a punctuation-free input yields `[]`. -/
theorem C1_regex_split_amended_witness :
    regex_sentence_split ("hello. world") ≠ [] ∧ regex_sentence_split ("hi") = [] := by
  constructor
  · exact (C1_regex_split_amended ("hello. world")).1.mpr (by decide)
  · exact (C1_regex_split_amended ("hi")).2.2 (by decide)

/-- C9: `regex_sentence_split` returns exactly the non-empty trimmed
fragments of the cleaned input that are followed by a terminal punctuation
mark (with that mark appended), in order; the trailing fragment after the
last mark — the whole text when there is no mark — contributes nothing. -/
theorem C9_regex_split_characterisation (text : String) :
    regex_sentence_split text = regexSplitSpec text :=
  regex_split_eq_spec text

/-- C2 (code-bug evidence): starting from the developer message and running
60 send/display turns, the active coordinator code keeps all 61 context
entries — `send_to_llm` never touches `self.context` and
`display_llm_response` appends without truncating — while the claimed
truncation would leave `MAX_CONTEXT_LENGTH + 1 = 51`. -/
theorem C2_no_truncation_after_60_messages :
    ((List.range 60).foldl
        (fun ctx _ =>
          display_llm_response (send_to_llm_context ctx ("user input")) ("reply"))
        [⟨"developer", "You are a helpful assistant."⟩]).length = 61 ∧
    MAX_CONTEXT_LENGTH + 1 = 51 ∧
    (∀ (ctx : List ChatMessage) (u : String), send_to_llm_context ctx u = ctx) ∧
    (∀ (ctx : List ChatMessage) (r : String),
      (display_llm_response ctx r).length = ctx.length + 1) := by
  refine ⟨by decide, by decide, fun ctx u => rfl, fun ctx r => by
    simp [display_llm_response]⟩

theorem workerOp_preserves_stopped {Req : Type} (s : StageWorkerState Req)
    (h1 : s.should_exit = true) (h2 : s.request_queue = [])
    (op : WorkerOp Req) :
    (applyWorkerOp s op).should_exit = true ∧
      (applyWorkerOp s op).request_queue = [] := by
  cases op with
  | add r => simp [applyWorkerOp, add_request, h1, h2]
  | stop => simp [applyWorkerOp, stopWorker]
  | poll => simp [applyWorkerOp, workerPoll, h1, h2]
  | finish => simp [applyWorkerOp, workerFinish, h1, h2]

theorem foldl_workerOps_stopped {Req : Type} (ops : List (WorkerOp Req)) :
    ∀ (s : StageWorkerState Req), s.should_exit = true → s.request_queue = [] →
      (ops.foldl applyWorkerOp s).should_exit = true ∧
        (ops.foldl applyWorkerOp s).request_queue = [] := by
  induction ops with
  | nil => intro s h1 h2; exact ⟨h1, h2⟩
  | cons op ops ih =>
    intro s h1 h2
    rw [List.foldl_cons]
    obtain ⟨g1, g2⟩ := workerOp_preserves_stopped s h1 h2 op
    exact ih _ g1 g2

/-- C6: `stop()` clears every queued request; `add_request` after `stop()`
leaves the worker state (and hence the queue) unchanged; and the queue
stays empty under every subsequent sequence of operations (enqueues,
stops, run-loop polls, processing completions).  This is the shared queue
logic of TTSWorker, OpenAIWorker and OllamaWorker. -/
theorem C6_enqueue_after_stop_noop {Req : Type} (s : StageWorkerState Req)
    (ops : List (WorkerOp Req)) :
    (stopWorker s).request_queue = [] ∧
    (∀ r, add_request (stopWorker s) r = stopWorker s) ∧
    (ops.foldl applyWorkerOp (stopWorker s)).request_queue = [] := by
  refine ⟨rfl, fun r => ?_, ?_⟩
  · simp [add_request, stopWorker]
  · exact (foldl_workerOps_stopped ops (stopWorker s) rfl rfl).2

theorem stageStep_conserves {Req Resp : Type} (engine : Req → Resp)
    (s : StageRun Req Resp) :
    (stageStep engine s).request_queue.length +
      ((stageStep engine s).current).toList.length +
      (stageStep engine s).emitted.length =
    s.request_queue.length + (s.current).toList.length + s.emitted.length := by
  unfold stageStep
  by_cases h : s.should_exit = true
  · simp [h]
  · simp only [h, if_false]
    cases hc : s.current with
    | some r =>
      simp
      omega
    | none =>
      cases hq : s.request_queue with
      | nil => simp [hq, hc]
      | cons r rest => simp

theorem runStage_conserves {Req Resp : Type} (engine : Req → Resp) (n : Nat) :
    ∀ (s : StageRun Req Resp),
      (runStage engine n s).request_queue.length +
        ((runStage engine n s).current).toList.length +
        (runStage engine n s).emitted.length =
      s.request_queue.length + (s.current).toList.length + s.emitted.length := by
  induction n with
  | zero => intro s; rfl
  | succ n ih =>
    intro s
    rw [runStage]
    rw [ih (stageStep engine s)]
    exact stageStep_conserves engine s

/-- C7: with three requests enqueued in order and an engine adapter that
never fails, the drain loop emits the three responses in enqueue order;
at every instant at most one request is in flight; and no request is ever
duplicated or lost along the way. -/
theorem C7_fifo_single_flight {Req Resp : Type} (engine : Req → Resp)
    (a b c : Req) :
    (runStage engine 6 ⟨[a, b, c], none, [], false⟩).emitted =
      [engine a, engine b, engine c] ∧
    (∀ n, ((runStage engine n
      (⟨[a, b, c], none, [], false⟩ : StageRun Req Resp)).current).toList.length ≤ 1) ∧
    (∀ n, (runStage engine n
        (⟨[a, b, c], none, [], false⟩ : StageRun Req Resp)).request_queue.length +
      ((runStage engine n
        (⟨[a, b, c], none, [], false⟩ : StageRun Req Resp)).current).toList.length +
      (runStage engine n
        (⟨[a, b, c], none, [], false⟩ : StageRun Req Resp)).emitted.length = 3) := by
  refine ⟨?_, ?_, ?_⟩
  · rfl
  · intro n
    cases h : (runStage engine n
        (⟨[a, b, c], none, [], false⟩ : StageRun Req Resp)).current <;> simp [h]
  · intro n
    rw [runStage_conserves engine n]
    rfl


/-- C8: when the text splits into at least two utterances and the engine
adapter succeeds on the first but throws on the second, exactly the first
utterance's audio has been delivered, the remaining utterances are
abandoned, and the stage emits exactly one `ttsError` and no
`ttsFinished`. -/
theorem C8_failure_on_second_utterance {α : Type}
    (synthesize : String → Except String (List α)) (text : String)
    (u1 u2 : String) (rest : List String) (audio1 : List α) (e : String)
    (hsplit : regex_sentence_split text = u1 :: u2 :: rest)
    (h1 : synthesize u1 = .ok audio1)
    (h2 : synthesize u2 = .error e) :
    ttsProcessRequest synthesize text = ([audio1], [.ttsError e]) := by
  unfold ttsProcessRequest
  rw [hsplit]
  simp [processSentences, h1, h2]

/-- Witness for `C8_failure_on_second_utterance` at the sample text and
engine. -/
theorem C8_failure_witness :
    ttsProcessRequest sampleSynth ("Hello there. How are you?") =
      ([[1]], [.ttsError ("boom")]) :=
  C8_failure_on_second_utterance sampleSynth ("Hello there. How are you?")
    ("Hello there.") ("How are you?") [] [1] ("boom") (by decide) rfl rfl

theorem flatMap_chunkPayload {α : Type} (cs : List (List α)) :
    ((cs.flatMap (fun c => [StreamItem.sleep, StreamItem.audioChunk c])).filterMap
      chunkPayload) = cs := by
  induction cs with
  | nil => rfl
  | cons c cs ih =>
    simp only [List.flatMap_cons, List.filterMap_append, ih]
    rfl

theorem make_generator_chunks {α : Type} (sr : Nat) (name : String) (bl : Bool)
    (C : Nat) (data : List α) :
    (make_generator sr name bl C data).filterMap chunkPayload = chunksOf C data := by
  unfold make_generator
  rw [List.filterMap_cons]
  exact flatMap_chunkPayload _

/-- C3: with `C = samplerate // chunk_duration > 0`, streamed delivery
yields exactly `⌈N / C⌉` chunk messages whose lengths sum to `N` (indeed
they concatenate back to the buffer); every chunk but the last has length
`C`; the final chunk has length `N mod C` when that is non-zero, and when
`N mod C = 0` no partial chunk exists — every chunk is full. -/
theorem C3_chunk_message_shape {α : Type} (samplerate chunk_duration : Nat)
    (instance_name : String) (blocking : Bool) (audio_data : List α)
    (C : Nat) (hCdef : C = samplerate / chunk_duration) (hC : 0 < C)
    (msgs : List (List α))
    (hmsgs : msgs = (push_audio_track_stream samplerate chunk_duration
      instance_name blocking audio_data).filterMap chunkPayload) :
    msgs.length = (audio_data.length + C - 1) / C ∧
    (msgs.map List.length).sum = audio_data.length ∧
    msgs.flatten = audio_data ∧
    (∀ ch ∈ msgs.dropLast, ch.length = C) ∧
    (audio_data.length % C ≠ 0 →
      (msgs.getLast?).map List.length = some (audio_data.length % C)) ∧
    (audio_data.length % C = 0 → ∀ ch ∈ msgs, ch.length = C) := by
  have hm2 : msgs = chunksRec C audio_data := by
    rw [hmsgs]
    unfold push_audio_track_stream
    rw [make_generator_chunks, ← hCdef, chunksOf_eq_chunksRec C hC]
  subst hm2
  refine ⟨chunksRec_length C hC audio_data, ?_, chunksRec_flatten C hC audio_data,
    chunksRec_dropLast_length C hC audio_data, ?_, ?_⟩
  · rw [← List.length_flatten, chunksRec_flatten C hC]
  · intro hmod
    have hne : audio_data ≠ [] := by
      intro h
      rw [h] at hmod
      simp at hmod
    rw [chunksRec_getLast_length C hC _ hne, if_neg hmod]
  · intro hmod ch hch
    cases hdata : audio_data with
    | nil =>
      rw [hdata] at hch
      simp [chunksRec] at hch
    | cons y ys =>
      have hne : audio_data ≠ [] := by rw [hdata]; simp
      have hcne : chunksRec C audio_data ≠ [] := by
        rw [Ne, chunksRec_eq_nil_iff]
        exact hne
      rw [← List.dropLast_append_getLast hcne] at hch
      rcases List.mem_append.mp hch with h | h
      · exact chunksRec_dropLast_length C hC audio_data ch h
      · have hlast := chunksRec_getLast_length C hC audio_data hne
        rw [if_pos hmod, List.getLast?_eq_getLast _ hcne] at hlast
        have hch2 : ch = (chunksRec C audio_data).getLast hcne := by
          simpa using h
        rw [hch2]
        simpa using hlast

/-- Witness for `C3_chunk_message_shape`: a 10-sample buffer at chunk size
4 concatenates back to itself. -/
theorem C3_chunk_message_witness :
    ((push_audio_track_stream 4 1 ("inst") true
      ([0, 1, 2, 3, 4, 5, 6, 7, 8, 9] : List Int)).filterMap chunkPayload).flatten =
      [0, 1, 2, 3, 4, 5, 6, 7, 8, 9] :=
  (C3_chunk_message_shape 4 1 ("inst") true _ 4 (by decide) (by decide) _ rfl).2.2.1

theorem flatMap_sleep_count {α : Type} (cs : List (List α)) :
    (cs.flatMap
      (fun c => [StreamItem.sleep, StreamItem.audioChunk c])).countP isSleepItem
      = cs.length := by
  induction cs with
  | nil => rfl
  | cons c cs ih =>
    simp [List.flatMap_cons, List.countP_cons, ih, isSleepItem]

theorem flatMap_chunk_count {α : Type} (cs : List (List α)) :
    (cs.flatMap
      (fun c => [StreamItem.sleep, StreamItem.audioChunk c])).countP isChunkItem
      = cs.length := by
  induction cs with
  | nil => rfl
  | cons c cs ih =>
    simp [List.flatMap_cons, List.countP_cons, ih, isChunkItem, isSleepItem]

theorem flatMap_sleep_before_chunk {α : Type} (cs : List (List α)) :
    ∀ (x : StreamItem α),
      (((x :: cs.flatMap (fun c => [StreamItem.sleep, StreamItem.audioChunk c])).zip
          (cs.flatMap (fun c => [StreamItem.sleep, StreamItem.audioChunk c]))).all
        (fun p => !isChunkItem p.2 || isSleepItem p.1)) = true := by
  induction cs with
  | nil => intro x; rfl
  | cons c cs ih =>
    intro x
    simp only [List.flatMap_cons, List.cons_append, List.nil_append,
      List.zip_cons_cons, List.all_cons]
    have h1 : (!isChunkItem (StreamItem.sleep : StreamItem α) ||
        isSleepItem x) = true := by
      simp [isChunkItem]
    have h2 : (!isChunkItem (StreamItem.audioChunk c) ||
        isSleepItem (StreamItem.sleep : StreamItem α)) = true := by
      simp [isSleepItem]
    rw [h1, h2]
    simpa using ih (StreamItem.audioChunk c)

theorem flatMap_getLast_not_sleep {α : Type} (cs : List (List α)) :
    ∀ (x : StreamItem α), isSleepItem x = false →
      ((x :: cs.flatMap
          (fun c => [StreamItem.sleep, StreamItem.audioChunk c])).getLast?).map
        isSleepItem ≠ some true := by
  induction cs with
  | nil =>
    intro x hx
    simp [hx]
  | cons c cs ih =>
    intro x hx
    simp only [List.flatMap_cons, List.cons_append, List.nil_append]
    rw [List.getLast?_cons_cons, List.getLast?_cons_cons]
    exact ih (StreamItem.audioChunk c) rfl

/-- C4 counterexample: for a single-chunk stream the generator sleeps
before sending the first (and only) chunk — the items preceding the first
chunk message contain a sleep, and there is one sleep although there are
no consecutive chunk-send pairs. -/
theorem C4_counterexample :
    make_generator 1 ("i") true 1 ([0] : List Int) =
      [.startMarker 1 ("i") true, .sleep, .audioChunk [0]] ∧
    ((make_generator 1 ("i") true 1 ([0] : List Int)).takeWhile
      (fun it => !isChunkItem it)).any isSleepItem = true ∧
    (make_generator 1 ("i") true 1 ([0] : List Int)).countP isChunkItem = 1 ∧
    (make_generator 1 ("i") true 1 ([0] : List Int)).countP isSleepItem ≠ 0 := by
  refine ⟨by decide, by decide, by decide, by decide⟩

/-- C4 (amended): the pacing sleep is executed once immediately before
every chunk send — including the first — so a terminating stream contains
exactly one sleep per chunk, every chunk message is immediately preceded
by a sleep, the trace opens with the start marker, and no sleep follows
the last chunk. -/
theorem C4_sleep_before_every_chunk {α : Type} (samplerate : Nat)
    (instance_name : String) (blocking : Bool) (chunk_size : Nat)
    (audio_data : List α) (_hC : 1 ≤ chunk_size) :
    (make_generator samplerate instance_name blocking chunk_size
        audio_data).countP isSleepItem =
      (make_generator samplerate instance_name blocking chunk_size
        audio_data).countP isChunkItem ∧
    (make_generator samplerate instance_name blocking chunk_size
        audio_data).head? = some (.startMarker samplerate instance_name blocking) ∧
    (((make_generator samplerate instance_name blocking chunk_size
          audio_data).zip
        (make_generator samplerate instance_name blocking chunk_size
          audio_data).tail).all
      (fun p => !isChunkItem p.2 || isSleepItem p.1)) = true ∧
    ((make_generator samplerate instance_name blocking chunk_size
        audio_data).getLast?).map isSleepItem ≠ some true := by
  refine ⟨?_, rfl, ?_, ?_⟩
  · unfold make_generator
    rw [List.countP_cons_of_neg _ _ (by simp [isSleepItem]),
      List.countP_cons_of_neg _ _ (by simp [isChunkItem]),
      flatMap_sleep_count, flatMap_chunk_count]
  · unfold make_generator
    exact flatMap_sleep_before_chunk (chunksOf chunk_size audio_data)
      (.startMarker samplerate instance_name blocking)
  · unfold make_generator
    exact flatMap_getLast_not_sleep (chunksOf chunk_size audio_data)
      (.startMarker samplerate instance_name blocking) rfl

/-- Witness for `C4_sleep_before_every_chunk`: a two-chunk stream carries
two sleeps and two chunk messages. -/
theorem C4_sleep_witness :
    (make_generator 2 ("i") true 1 ([5, 6] : List Int)).countP isSleepItem =
      (make_generator 2 ("i") true 1 ([5, 6] : List Int)).countP isChunkItem :=
  (C4_sleep_before_every_chunk 2 ("i") true 1 ([5, 6] : List Int) (by decide)).1

theorem clientMessages_make_generator {α : Type} (sr : Nat) (name : String)
    (bl : Bool) (C : Nat) (data : List α) :
    clientMessages (make_generator sr name bl C data) =
      .start sr name bl ::
        (chunksOf C data).map (fun c => A2FMsg.audio c) := by
  unfold clientMessages make_generator
  rw [List.filterMap_cons]
  show A2FMsg.start sr name bl :: _ = _
  congr 1
  generalize chunksOf C data = cs
  induction cs with
  | nil => rfl
  | cons c cs ih =>
    simp only [List.flatMap_cons, List.cons_append, List.nil_append,
      List.filterMap_cons, List.map_cons]
    rw [ih]

/-- C5: the client generator yields exactly one start-marker message — the
first message of the session, carrying the sample rate, instance name and
blocking flag — before any audio message; and the server's
`PushAudioStream` answers `success = False` and passes no chunk to the
chunk callback whenever the first message of a session is not a start
marker. -/
theorem C5_start_marker_first {α : Type} (sr C : Nat) (name : String)
    (bl : Bool) (data : List α) (_hC : 1 ≤ C)
    (start_cb : String → Nat → Option String)
    (chunk_cb : String → List α → Option String)
    (end_cb : String → Bool → Option String)
    (first : List α) (rest : List (A2FMsg α)) :
    (clientMessages (make_generator sr name bl C data)).head? =
      some (.start sr name bl) ∧
    (clientMessages (make_generator sr name bl C data)).countP isStartMsg = 1 ∧
    pushAudioStreamServer start_cb chunk_cb end_cb (.audio first :: rest) =
      .ok (⟨false, "First item in the request should contain start_marker"⟩, []) := by
  refine ⟨?_, ?_, rfl⟩
  · rw [clientMessages_make_generator]
    rfl
  · rw [clientMessages_make_generator]
    rw [List.countP_cons_of_pos _ _ (by simp [isStartMsg])]
    have hzero : ((chunksOf C data).map
        (fun c => A2FMsg.audio c)).countP isStartMsg = 0 := by
      rw [List.countP_eq_zero]
      intro m hm
      rcases List.mem_map.mp hm with ⟨c, hc, hmc⟩
      rw [← hmc]
      simp [isStartMsg]
    rw [hzero]

/-- Witness for `C5_start_marker_first`. -/
theorem C5_start_marker_witness :
    (clientMessages (make_generator 3 ("p") false 1 ([7] : List Int))).countP
      isStartMsg = 1 ∧
    pushAudioStreamServer (fun _ _ => none) (fun _ _ => none) (fun _ _ => none)
      (.audio ([1] : List Int) :: []) =
      .ok (⟨false, "First item in the request should contain start_marker"⟩, []) := by
  have h := C5_start_marker_first 3 1 ("p") false ([7] : List Int) (by decide)
    (fun _ _ => none) (fun _ _ => none) (fun _ _ => none) [1] []
  exact ⟨h.2.1, h.2.2⟩

/-- C10: the chunk generator loop terminates on a finite buffer exactly
when `chunk_size = samplerate // chunk_duration ≥ 1` or the buffer is
empty; when `samplerate // chunk_duration = 0` and the buffer is
non-empty, no amount of fuel completes the loop — `idx` is never
advanced. -/
theorem C10_generator_termination {α : Type} (samplerate chunk_duration : Nat)
    (audio_data : List α) :
    (∃ fuel,
      (chunkLoopFuel fuel (samplerate / chunk_duration) audio_data 0).isSome) ↔
      (1 ≤ samplerate / chunk_duration ∨ audio_data = []) := by
  constructor
  · rintro ⟨fuel, hf⟩
    by_contra hcon
    have hC0 : ¬ 1 ≤ samplerate / chunk_duration := fun h => hcon (Or.inl h)
    have hne : audio_data ≠ [] := fun h => hcon (Or.inr h)
    have hC : samplerate / chunk_duration = 0 :=
      Nat.lt_one_iff.mp (Nat.not_le.mp hC0)
    have hpos : 0 < audio_data.length := List.length_pos.mpr hne
    have stuck : ∀ f, chunkLoopFuel f 0 audio_data 0 = none := by
      intro f
      induction f with
      | zero => simp [chunkLoopFuel, hpos]
      | succ f ih => simp [chunkLoopFuel, hpos, ih]
    rw [hC, stuck fuel] at hf
    simp at hf
  · intro h
    rcases h with hC | hnil
    · refine ⟨audio_data.length, ?_⟩
      rw [chunkLoopFuel_eq_chunksRec _ hC audio_data.length audio_data 0
        (by
          have hmul : audio_data.length * 1 ≤
              audio_data.length * (samplerate / chunk_duration) :=
            Nat.mul_le_mul_left _ hC
          omega)]
      rfl
    · subst hnil
      exact ⟨0, by simp [chunkLoopFuel]⟩

/-- Witness for `C10_generator_termination`: a 3-sample buffer with a
positive chunk size terminates. -/
theorem C10_generator_termination_witness :
    ∃ fuel, (chunkLoopFuel fuel (16000 / 100) ([0, 1, 2] : List Int) 0).isSome :=
  (C10_generator_termination 16000 100 [0, 1, 2]).mpr (Or.inl (by decide))

end Melax
